import Mathlib

/-
Verification of the mutation recorder (`mobwrite.SimpleDiffer`) of
`src/js/simple_differ.js`.

The recorder state is the `chunks_` array: a list of tagged records.  A
`copy` chunk references a span of the original document by start offset and
length; the JavaScript code uses the floating-point `Infinity` for the length
of the trailing copy chunk, modelled here as `none : Option Nat`.  An `ins`
chunk carries literal inserted text together with its recorded `length`
field (kept as a separate field, exactly as in the source).

All arithmetic in the source is on non-negative integers apart from the
`Infinity` sentinel; the places where the JavaScript evaluates
`Infinity - Infinity` (NaN) or `finite - Infinity` are modelled by the same
case analysis the floating-point comparisons induce (`NaN > 0` and
`-Infinity > 0` are both false).
-/

namespace MobCode

/-- A chunk of the virtual document, mirroring the tagged records of
`mobwrite.SimpleDiffer.prototype.chunks_`. -/
inductive Chunk where
  | copy (start : Nat) (len : Option Nat)
  | ins (text : List Char) (len : Nat)
deriving DecidableEq

/-- The `length` field of a chunk (`none` = the JavaScript `Infinity`). -/
def chunkLen : Chunk → Option Nat
  | .copy _ l => l
  | .ins _ n => some n

/-- The constructor `mobwrite.SimpleDiffer`: a single unbounded copy chunk. -/
def initialChunks : List Chunk := [Chunk.copy 0 none]

/-- Model of `findChunk_`: walk the chunk list accumulating lengths until the chunk
containing `target` is found.  The JavaScript compares
`currentCharIndex + chunk.length > targetCharIndex`; subtracting the
accumulated length from the target instead is equivalent on naturals, and a
`none` (`Infinity`) length always satisfies the comparison.  Falling off the
end returns `none` (the JavaScript returns `undefined`). -/
def findChunkAux : List Chunk → Nat → Nat → Option (Nat × Nat)
  | [], _, _ => none
  | c :: cs, target, i =>
    match chunkLen c with
    | none => some (i, target)
    | some l => if target < l then some (i, target) else findChunkAux cs (target - l) (i + 1)

/-- The search `findChunk_(targetCharIndex)` of `simple_differ.js`. -/
def findChunk (chunks : List Chunk) (target : Nat) : Option (Nat × Nat) :=
  findChunkAux chunks target 0

/-- The mutated-in-place first half of a split chunk: the length field
becomes `splitAt`, a copy keeps its start, an insert keeps the text
prefix. -/
def leftHalf (c : Chunk) (off : Nat) : Chunk :=
  match c with
  | .copy s _ => .copy s (some off)
  | .ins t _ => .ins (t.take off) off

/-- The freshly spliced-in second half of a split chunk: length
`chunk.length - splitAt`, start `chunk.start + splitAt` for a copy, the text
suffix for an insert. -/
def rightHalf (c : Chunk) (off : Nat) : Chunk :=
  match c with
  | .copy s len => .copy (s + off) (match len with | none => none | some l => some (l - off))
  | .ins t n => .ins (t.drop off) (n - off)

/-- Model of `splitChunk_(chunkIndex, splitAt)`: replace the chunk at `chunkIndex` by
its two halves.  An out-of-range index leaves the list unchanged (the
JavaScript would fault there; the call sites never do this because
`findChunk_` always returns an in-range index). -/
def splitChunk (chunks : List Chunk) (chunkIndex splitOff : Nat) : List Chunk :=
  match chunks[chunkIndex]? with
  | none => chunks
  | some c =>
    chunks.take chunkIndex ++
      leftHalf c splitOff :: rightHalf c splitOff :: chunks.drop (chunkIndex + 1)

/-- The call `Array.prototype.splice(i, 0, c)`: insert `c` at index `i`. -/
def insertAt (l : List Chunk) (i : Nat) (c : Chunk) : List Chunk :=
  l.take i ++ c :: l.drop i

/-- Model of `applyInsert(index, text)` of `simple_differ.js`. -/
def applyInsert (chunks : List Chunk) (index : Nat) (text : List Char) : List Chunk :=
  match findChunk chunks index with
  | none => chunks
  | some (chunkIndex, off) =>
    let chunks1 := splitChunk chunks chunkIndex off
    insertAt chunks1 (chunkIndex + 1) (.ins text text.length)

/-- Model of `applyDelete(startIndex, endIndex)` of `simple_differ.js`: no-op when the
bounds coincide, otherwise split at the start index, then locate and split at
the end index against the post-first-split list, then splice out the chunks
strictly between the two split points.  `Array.prototype.splice` with a
non-positive delete count removes nothing, which truncated natural
subtraction reproduces. -/
def applyDelete (chunks : List Chunk) (startIndex endIndex : Nat) : List Chunk :=
  if startIndex = endIndex then chunks
  else
    match findChunk chunks startIndex with
    | none => chunks
    | some (sci, soff) =>
      let c1 := splitChunk chunks sci soff
      let dStart := sci + 1
      match findChunk c1 endIndex with
      | none => c1
      | some (eci, eoff) =>
        let c2 := splitChunk c1 eci eoff
        let dEnd := eci + 1
        c2.take dStart ++ c2.drop (dStart + (dEnd - dStart))

/-- The call `Array.prototype.splice(i, 1)`: remove the element at index `i`. -/
def eraseAt (l : List Chunk) (i : Nat) : List Chunk :=
  l.take i ++ l.drop (i + 1)

/-- In-place update of the element at an index (no-op when out of range). -/
def modifyAt : List Chunk → Nat → (Chunk → Chunk) → List Chunk
  | [], _, _ => []
  | c :: cs, 0, f => f c :: cs
  | c :: cs, n + 1, f => c :: modifyAt cs n f

/-- The mutation `prevInsert.text += chunk.text; prevInsert.length +=
chunk.length` performed by `mergeInserts_` on the tracked previous insert. -/
def bumpIns (t2 : List Char) (n2 : Nat) : Chunk → Chunk
  | .ins t n => .ins (t ++ t2) (n + n2)
  | c => c

/-- One-for-one model of the `mergeInserts_` loop.  `i` is the loop index and
`prev` the index of the tracked `prevInsert` element (`none` for `null`); the
element tracked by `prev` always sits strictly below `i`, so erasures at `i`
never move it.  The three insert branches follow the source: an empty-text
insert is spliced out with no `i--` (so the element that slides into slot `i`
is skipped), a non-empty insert with an active `prevInsert` is appended onto
it and spliced out with `i--`, and otherwise the insert becomes the new
`prevInsert`.  The loop runs while `i < chunks.length`; every iteration
either increments `i` (the length never grows) or shortens the list, so it
performs at most `2 * length` iterations and the fuel below never runs
out. -/
def mergeInsertsFuel : Nat → List Chunk → Nat → Option Nat → List Chunk
  | 0, chunks, _, _ => chunks
  | fuel + 1, chunks, i, prev =>
    match chunks[i]? with
    | none => chunks
    | some (.ins t n) =>
      if t = [] then
        mergeInsertsFuel fuel (eraseAt chunks i) (i + 1) prev
      else
        match prev with
        | some p => mergeInsertsFuel fuel (eraseAt (modifyAt chunks p (bumpIns t n)) i) i prev
        | none => mergeInsertsFuel fuel chunks (i + 1) (some i)
    | some (.copy _ _) => mergeInsertsFuel fuel chunks (i + 1) none

/-- Model of `mergeInserts_` of `simple_differ.js`. -/
def mergeInserts (chunks : List Chunk) : List Chunk :=
  mergeInsertsFuel (2 * chunks.length + 1) chunks 0 none

/-- An action of the simplified diff.  The `end` offset of a delete and the
`start` offset of an insert are produced from arithmetic involving the
`Infinity` sentinel in the source, so they are `Option Nat` here (`none` =
`Infinity`); the safety claim is precisely that `none` never reaches the
returned list. -/
inductive Action where
  | del (dstart : Nat) (dend : Option Nat)
  | insA (istart : Option Nat) (text : List Char)
deriving DecidableEq

/-- The first (emission) loop of `getSimpleDiff`, walking the chunk list from
last to first; the argument list here is the reversed chunk list.
`lastCopy` models `lastCopyCharIndex` (`none` = `Infinity`).  For a copy
chunk the source computes `deletedChars = lastCopyCharIndex - (chunk.start +
chunk.length)` and emits a delete when it is positive, with
`end = chunk.start + chunk.length + deletedChars = lastCopyCharIndex`:
with a finite chunk length this is positive exactly when
`chunk.start + chunk.length < lastCopyCharIndex` (always true when
`lastCopyCharIndex` is `Infinity`, where the emitted end is `Infinity`);
with an infinite chunk length the subtraction yields `NaN` or `-Infinity`,
and the comparison is false either way. -/
def emitAux (lastCopy : Option Nat) : List Chunk → List Action
  | [] => []
  | .copy s (some l) :: rest =>
    match lastCopy with
    | some lc =>
      if s + l < lc then .del (s + l) (some lc) :: emitAux (some s) rest
      else emitAux (some s) rest
    | none => .del (s + l) none :: emitAux (some s) rest
  | .copy s none :: rest => emitAux (some s) rest
  | .ins t _ :: rest => .insA lastCopy t :: emitAux lastCopy rest

/-- The second (delete-merging) loop of `getSimpleDiff`.  The source walks
the emitted list from its last index down to 0 with a `prevDelete` pointer;
`prevDelete` is exactly the head of the already-processed part whenever that
head is a delete, so the loop is processed here over the reversed list with
the processed part as an accumulator.  `prevDelete.end == action.start`
compares the possibly-infinite end with a finite start (`Infinity == n` is
false in JavaScript). -/
def mergeDeletesAux : List Action → List Action → List Action
  | acc, [] => acc
  | acc, .del s e :: rest =>
    match acc with
    | .del ps pe :: accRest =>
      if pe = some s then mergeDeletesAux (.del ps e :: accRest) rest
      else mergeDeletesAux (.del s e :: acc) rest
    | _ => mergeDeletesAux (.del s e :: acc) rest
  | acc, a :: rest => mergeDeletesAux (a :: acc) rest

/-- The delete-merging pass over the emitted action list. -/
def mergeDeletes (l : List Action) : List Action :=
  mergeDeletesAux [] l.reverse

/-- Model of `getSimpleDiff()` of `simple_differ.js`: coalesce inserts, emit actions
walking the chunks from last to first, then merge adjacent deletes. -/
def getSimpleDiff (chunks : List Chunk) : List Action :=
  mergeDeletes (emitAux none (mergeInserts chunks).reverse)

/-- A recorded edit: one `applyInsert` or `applyDelete` call. -/
inductive Edit where
  | einsert (index : Nat) (text : List Char)
  | edelete (startIndex endIndex : Nat)
deriving DecidableEq

/-- Apply one recorded edit to the recorder state. -/
def applyEdit (chunks : List Chunk) : Edit → List Chunk
  | .einsert i t => applyInsert chunks i t
  | .edelete a b => applyDelete chunks a b

/-- Run an edit sequence against a fresh recorder. -/
def runEdits (es : List Edit) : List Chunk :=
  es.foldl applyEdit initialChunks

/-- Apply one edit directly to a string (the reference semantics: insert
splices text in at the index, delete removes the half-open span). -/
def applyEditStr (doc : List Char) : Edit → List Char
  | .einsert i t => doc.take i ++ t ++ doc.drop i
  | .edelete a b => doc.take a ++ doc.drop b

/-- Apply an edit sequence directly to a string. -/
def applyEditsStr (doc : List Char) (es : List Edit) : List Char :=
  es.foldl applyEditStr doc

/-- Well-formedness of an edit sequence against a base string: every call's
offsets are valid against the then-current virtual document length. -/
def wfEdits : List Char → List Edit → Bool
  | _, [] => true
  | doc, e :: rest =>
    (match e with
     | .einsert i _ => decide (i ≤ doc.length)
     | .edelete a b => decide (a ≤ b) && decide (b ≤ doc.length)) &&
    wfEdits (applyEditStr doc e) rest

/-- Apply one simplified-diff action to a string in original-document
coordinates: a delete removes `[start, end)`, an insert puts its text at its
start offset.  The `none` (`Infinity`) offsets are given their limiting
meaning; the safety result shows they never occur in a produced diff. -/
def applyActionStr (s : List Char) : Action → List Char
  | .del a (some b) => s.take a ++ s.drop b
  | .del a none => s.take a
  | .insA (some i) t => s.take i ++ t ++ s.drop i
  | .insA none t => s ++ t

/-- Replay a simplified diff against a base string in the returned
(end-to-beginning) order. -/
def replay (s : List Char) (acts : List Action) : List Char :=
  acts.foldl applyActionStr s

/-- The span of original-document text a chunk stands for. -/
def denote (S : List Char) : Chunk → List Char
  | .copy s (some l) => (S.drop s).take l
  | .copy s none => S.drop s
  | .ins t _ => t

/-- The virtual document a chunk sequence denotes, given the base string. -/
def docOf (S : List Char) (chunks : List Chunk) : List Char :=
  (chunks.map (denote S)).flatten

/-- A `delete` edit with equal bounds. -/
def isTrivialDelete : Edit → Bool
  | .edelete a b => a == b
  | _ => false

/-- Recorder states reachable from a fresh recorder by any sequence of
`applyInsert` / `applyDelete` calls. -/
inductive Reachable : List Chunk → Prop where
  | init : Reachable initialChunks
  | ins (index : Nat) (text : List Char) {c : List Chunk} (h : Reachable c) :
      Reachable (applyInsert c index text)
  | del (a b : Nat) {c : List Chunk} (h : Reachable c) :
      Reachable (applyDelete c a b)

/-- An action with finite offsets (and a nonempty span for a delete). -/
def actionFinite : Action → Prop
  | .del s (some e) => s < e
  | .del _ none => False
  | .insA (some _) _ => True
  | .insA none _ => False

/-- The delete spans of an action list, in list order. -/
def delSpans (l : List Action) : List (Nat × Option Nat) :=
  l.filterMap fun a => match a with | .del s e => some (s, e) | _ => none

/-- Span `q` lies entirely at or below the start of span `p` (the list is
ordered end-to-beginning, so later spans have smaller offsets). -/
def spanBelow (p q : Nat × Option Nat) : Prop :=
  match q.2 with
  | some v => v ≤ p.1
  | none => False

/-- Two directly consecutive actions are not an adjacent pair of deletes:
if both are deletes, the end of the second (the one closer to the document
start) differs from the start of the first. -/
def noAdjacent : Action → Action → Prop
  | .del s _, .del _ e2 => e2 ≠ some s
  | _, _ => True

/-- No two consecutive delete actions in the list are adjacent. -/
def consecOK (l : List Action) : Prop :=
  List.Chain' noAdjacent l

/-- The copy-chunk spans of a state, in chunk order. -/
def copySpans (chunks : List Chunk) : List (Nat × Option Nat) :=
  chunks.filterMap fun c => match c with | .copy s l => some (s, l) | .ins _ _ => none

/-- Well-ordering of copy spans from a lower bound: every span starts at or
after `lo`, a finite span pushes the bound to its end, and the single
infinite span closes the list. -/
def spansFrom : Nat → List (Nat × Option Nat) → Prop
  | _, [] => False
  | lo, (s, none) :: rest => lo ≤ s ∧ rest = []
  | lo, (s, some l) :: rest => lo ≤ s ∧ spansFrom (s + l) rest

/-- The final chunk is a copy chunk of infinite length. -/
def isLastNoneCopy (chunks : List Chunk) : Prop :=
  ∃ s, chunks.getLast? = some (.copy s none)

/-- The structural invariant of reachable recorder states: the copy spans
are ordered and pairwise disjoint, the unique infinite span comes last, and
the final chunk is the infinite copy chunk. -/
def Inv (chunks : List Chunk) : Prop :=
  spansFrom 0 (copySpans chunks) ∧ isLastNoneCopy chunks

/-- The invariant read along a reversed chunk list: scanning right-to-left
from upper bound `ub`, every finite copy span ends at or below the running
bound and lowers it to its start, no infinite span occurs, and the final
bound is at least `lo`. -/
def revSpansBetween : Nat → List Chunk → Nat → Prop
  | ub, [], lo => lo ≤ ub
  | ub, .copy s (some l) :: rest, lo => s + l ≤ ub ∧ revSpansBetween s rest lo
  | _, .copy _ none :: _, _ => False
  | ub, .ins _ _ :: rest, lo => revSpansBetween ub rest lo

/-- Shape invariant of an emitted action list below an upper bound: every
delete has finite, nonempty span ending at or below the running bound and
lowers the bound to its start; every insert has a finite point at or below
the running bound and lowers the bound to that point (in the emission loop
an insert's point is exactly the current `lastCopyCharIndex`, and every
later copy chunk lies at or below it). -/
def emitted : Nat → List Action → Prop
  | _, [] => True
  | ub, .del s (some e) :: rest => s < e ∧ e ≤ ub ∧ emitted s rest
  | _, .del _ none :: _ => False
  | ub, .insA (some p) _ :: rest => p ≤ ub ∧ emitted p rest
  | _, .insA none _ :: _ => False

/-- An insert's zero-width point never lies strictly inside a delete's span:
read along the end-to-beginning action list, a delete that comes before an
insert (higher offsets) starts at or above the insert's point, and a delete
that comes after an insert (lower offsets) ends at or below it.  All other
pairs are unconstrained here (delete/delete pairs are handled by
`spanBelow`, and two zero-width points cannot overlap). -/
def noInteriorInsert : Action → Action → Prop
  | .del s _, .insA (some q) _ => q ≤ s
  | .insA (some p) _, .del _ e2 => match e2 with | some v => v ≤ p | none => False
  | _, _ => True

/-- Helper: `applyDelete` with equal bounds returns the state unchanged. -/
theorem applyDelete_self (chunks : List Chunk) (i : Nat) : applyDelete chunks i i = chunks := by
  simp [applyDelete]

/-- Helper: an element selected by `getElem?` splits the list around it. -/
theorem getElem?_decomp {l : List Chunk} {i : Nat} {c : Chunk} (h : l[i]? = some c) :
    l = l.take i ++ c :: l.drop (i + 1) := by
  induction l generalizing i with
  | nil => simp at h
  | cons x xs ih =>
    cases i with
    | zero =>
      simp only [List.getElem?_cons_zero, Option.some.injEq] at h
      subst h; simp
    | succ n =>
      simp only [List.getElem?_cons_succ] at h
      simpa using ih h

/-- Helper: membership of the optional last element. -/
theorem mem_of_getLast?_eq {l : List Chunk} {c : Chunk} (h : l.getLast? = some c) : c ∈ l := by
  obtain ⟨hne, rfl⟩ := List.mem_getLast?_eq_getLast (Option.mem_def.mpr h)
  exact List.getLast_mem hne

/-- Helper: a lookup hit bounds the index. -/
theorem lt_length_of_getElem? {l : List Chunk} {i : Nat} {c : Chunk} (h : l[i]? = some c) :
    i < l.length := by
  by_contra hge
  rw [List.getElem?_eq_none (by omega)] at h
  cases h

theorem copySpans_nil : copySpans [] = [] := rfl

theorem copySpans_cons_copy (s : Nat) (l : Option Nat) (rest : List Chunk) :
    copySpans (Chunk.copy s l :: rest) = (s, l) :: copySpans rest := rfl

theorem copySpans_cons_ins (t : List Char) (n : Nat) (rest : List Chunk) :
    copySpans (Chunk.ins t n :: rest) = copySpans rest := rfl

theorem copySpans_append (a b : List Chunk) :
    copySpans (a ++ b) = copySpans a ++ copySpans b :=
  List.filterMap_append a b _

theorem spansFrom_mono {lo lo2 : Nat} (h : lo2 ≤ lo) :
    ∀ sp, spansFrom lo sp → spansFrom lo2 sp := by
  intro sp hs
  match sp with
  | [] => exact hs
  | (s, none) :: rest =>
    simp only [spansFrom] at hs ⊢
    exact ⟨Nat.le_trans h hs.1, hs.2⟩
  | (s, some l) :: rest =>
    simp only [spansFrom] at hs ⊢
    exact ⟨Nat.le_trans h hs.1, hs.2⟩

/-- Splitting a finite span in two preserves the span chain. -/
theorem spansFrom_split_some (A : List (Nat × Option Nat)) {lo s l off : Nat}
    {B : List (Nat × Option Nat)} (hoff : off ≤ l)
    (h : spansFrom lo (A ++ (s, some l) :: B)) :
    spansFrom lo (A ++ (s, some off) :: (s + off, some (l - off)) :: B) := by
  induction A generalizing lo with
  | nil =>
    simp only [List.nil_append, spansFrom] at h ⊢
    exact ⟨h.1, Nat.le_refl _, by rw [show s + off + (l - off) = s + l by omega]; exact h.2⟩
  | cons a A2 ih =>
    obtain ⟨s2, l2⟩ := a
    cases l2 with
    | none =>
      simp only [List.cons_append, spansFrom] at h
      exact absurd h.2 (by simp)
    | some al =>
      simp only [List.cons_append, spansFrom] at h ⊢
      exact ⟨h.1, ih h.2⟩

/-- Splitting the infinite span in two preserves the span chain. -/
theorem spansFrom_split_none (A : List (Nat × Option Nat)) {lo s off : Nat}
    {B : List (Nat × Option Nat)}
    (h : spansFrom lo (A ++ (s, none) :: B)) :
    spansFrom lo (A ++ (s, some off) :: (s + off, none) :: B) := by
  induction A generalizing lo with
  | nil =>
    simp only [List.nil_append, spansFrom] at h
    obtain ⟨h1, h2⟩ := h
    subst h2
    exact ⟨h1, Nat.le_refl _, rfl⟩
  | cons a A2 ih =>
    obtain ⟨s2, l2⟩ := a
    cases l2 with
    | none =>
      simp only [List.cons_append, spansFrom] at h
      exact absurd h.2 (by simp)
    | some al =>
      simp only [List.cons_append, spansFrom] at h ⊢
      exact ⟨h.1, ih h.2⟩

/-- Dropping a prefix of the span chain keeps the chain (the bound only ever
grows along the chain). -/
theorem spansFrom_elim_prefix :
    ∀ (M : List (Nat × Option Nat)) {lo : Nat} {B : List (Nat × Option Nat)},
      B ≠ [] → spansFrom lo (M ++ B) → spansFrom lo B := by
  intro M
  induction M with
  | nil => intro lo B _ h; exact h
  | cons m M2 ih =>
    intro lo B hB h
    obtain ⟨s2, l2⟩ := m
    cases l2 with
    | none =>
      simp only [List.cons_append, spansFrom] at h
      exact absurd ((List.append_eq_nil.mp h.2).2) hB
    | some al =>
      simp only [List.cons_append, spansFrom] at h
      exact spansFrom_mono (Nat.le_trans h.1 (Nat.le_add_right _ _)) B (ih hB h.2)

/-- Removing a contiguous middle section of the span chain keeps the chain,
as long as the tail section is still there. -/
theorem spansFrom_remove_middle (A : List (Nat × Option Nat))
    {lo : Nat} (M B : List (Nat × Option Nat)) (hB : B ≠ [])
    (h : spansFrom lo (A ++ M ++ B)) : spansFrom lo (A ++ B) := by
  induction A generalizing lo with
  | nil => exact spansFrom_elim_prefix M hB (by simpa using h)
  | cons a A2 ih =>
    obtain ⟨s2, l2⟩ := a
    cases l2 with
    | none =>
      simp only [List.cons_append, spansFrom] at h
      exact absurd (List.append_eq_nil.mp h.2).2 hB
    | some al =>
      simp only [List.cons_append, spansFrom] at h ⊢
      exact ⟨h.1, ih h.2⟩

/-- Full specification of a successful `findChunkAux` search: the returned
index is in range, and the remainder offset is strictly below the found
chunk's length whenever that length is finite. -/
theorem findChunkAux_spec :
    ∀ (cs : List Chunk) (t i j off : Nat), findChunkAux cs t i = some (j, off) →
      i ≤ j ∧ j - i < cs.length ∧
        ∀ c, cs[j - i]? = some c → ∀ l, chunkLen c = some l → off < l := by
  intro cs
  induction cs with
  | nil => intro t i j off h; simp [findChunkAux] at h
  | cons c cs ih =>
    intro t i j off h
    simp only [findChunkAux] at h
    cases hcl : chunkLen c with
    | none =>
      rw [hcl] at h
      simp only [Option.some.injEq, Prod.mk.injEq] at h
      obtain ⟨rfl, rfl⟩ := h
      refine ⟨Nat.le_refl _, by simp, ?_⟩
      intro c2 hc2 l hl
      simp only [Nat.sub_self, List.getElem?_cons_zero, Option.some.injEq] at hc2
      subst hc2
      rw [hcl] at hl
      cases hl
    | some l0 =>
      rw [hcl] at h
      simp only at h
      by_cases hlt : t < l0
      · rw [if_pos hlt] at h
        simp only [Option.some.injEq, Prod.mk.injEq] at h
        obtain ⟨rfl, rfl⟩ := h
        refine ⟨Nat.le_refl _, by simp, ?_⟩
        intro c2 hc2 l hl
        simp only [Nat.sub_self, List.getElem?_cons_zero, Option.some.injEq] at hc2
        subst hc2
        rw [hcl] at hl
        injection hl with hl2
        omega
      · rw [if_neg hlt] at h
        obtain ⟨h1, h2, h3⟩ := ih (t - l0) (i + 1) j off h
        refine ⟨by omega, by simp; omega, ?_⟩
        intro c2 hc2 l hl
        have hji : j - i = (j - (i + 1)) + 1 := by omega
        rw [hji, List.getElem?_cons_succ] at hc2
        exact h3 c2 hc2 l hl

/-- A successful `findChunk_` returns an in-range chunk index. -/
theorem findChunk_lt_length {chunks : List Chunk} {t j off : Nat}
    (h : findChunk chunks t = some (j, off)) : j < chunks.length := by
  have := (findChunkAux_spec chunks t 0 j off h).2.1
  simpa using this

/-- A successful `findChunk_` never lands at or past the end of a finite
chunk: the remainder offset is strictly interior (or 0). -/
theorem findChunk_interior {chunks : List Chunk} {t j off : Nat} {c : Chunk} {l : Nat}
    (h : findChunk chunks t = some (j, off)) (hc : chunks[j]? = some c)
    (hl : chunkLen c = some l) : off < l := by
  have h3 := (findChunkAux_spec chunks t 0 j off h).2.2
  exact h3 c (by simpa using hc) l hl

/-- The chunk walk always succeeds when some chunk has infinite length. -/
theorem findChunkAux_isSome :
    ∀ (cs : List Chunk) (t i : Nat), (∃ c ∈ cs, chunkLen c = none) →
      (findChunkAux cs t i).isSome = true := by
  intro cs
  induction cs with
  | nil => intro t i h; obtain ⟨c, hc, _⟩ := h; simp at hc
  | cons c cs ih =>
    intro t i h
    simp only [findChunkAux]
    cases hcl : chunkLen c with
    | none => rfl
    | some l0 =>
      simp only
      by_cases hlt : t < l0
      · rw [if_pos hlt]; rfl
      · rw [if_neg hlt]
        obtain ⟨c2, hc2, hnone⟩ := h
        rcases List.mem_cons.mp hc2 with rfl | hmem
        · rw [hcl] at hnone; cases hnone
        · exact ih _ _ ⟨c2, hmem, hnone⟩

/-- Helper: the last element of a nonempty tail is the last of the whole. -/
theorem isLastNoneCopy_cons {c : Chunk} {l : List Chunk} (hne : l ≠ []) :
    isLastNoneCopy (c :: l) ↔ isLastNoneCopy l := by
  cases l with
  | nil => exact absurd rfl hne
  | cons d ds => simp only [isLastNoneCopy, List.getLast?_cons_cons]

/-- Unfolding lemma for a split whose index is in range. -/
theorem splitChunk_eq {chunks : List Chunk} {ci : Nat} {c : Chunk} (off : Nat)
    (h : chunks[ci]? = some c) :
    splitChunk chunks ci off
      = chunks.take ci ++ leftHalf c off :: rightHalf c off :: chunks.drop (ci + 1) := by
  rw [splitChunk, h]

/-- A valid split grows the chunk list by exactly one. -/
theorem splitChunk_length {chunks : List Chunk} {ci : Nat} {c : Chunk} (off : Nat)
    (h : chunks[ci]? = some c) :
    (splitChunk chunks ci off).length = chunks.length + 1 := by
  have hci : ci < chunks.length := lt_length_of_getElem? h
  rw [splitChunk_eq off h]
  simp only [List.length_append, List.length_take, List.length_cons, List.length_drop]
  omega

/-- Splitting a chunk at an offset within its length preserves the
structural invariant. -/
theorem splitChunk_inv {chunks : List Chunk} {ci off : Nat} (hinv : Inv chunks)
    (hgood : ∀ c, chunks[ci]? = some c → ∀ l, chunkLen c = some l → off ≤ l) :
    Inv (splitChunk chunks ci off) := by
  cases hc : chunks[ci]? with
  | none => rw [splitChunk, hc]; exact hinv
  | some c =>
    have hdecomp := getElem?_decomp hc
    obtain ⟨hspans, hlast⟩ := hinv
    rw [splitChunk_eq off hc]
    constructor
    · rw [hdecomp] at hspans
      rw [copySpans_append] at hspans ⊢
      cases c with
      | copy s len =>
        cases len with
        | some l =>
          have hle : off ≤ l := hgood _ hc l rfl
          rw [copySpans_cons_copy] at hspans
          simp only [leftHalf, rightHalf, copySpans_cons_copy]
          exact spansFrom_split_some _ hle hspans
        | none =>
          rw [copySpans_cons_copy] at hspans
          simp only [leftHalf, rightHalf, copySpans_cons_copy]
          exact spansFrom_split_none _ hspans
      | ins t n =>
        rw [copySpans_cons_ins] at hspans
        simp only [leftHalf, rightHalf, copySpans_cons_ins]
        exact hspans
    · cases hdrop : chunks.drop (ci + 1) with
      | nil =>
        have hcl : chunks.getLast? = some c := by
          rw [hdecomp, hdrop, List.getLast?_append_cons]
          rfl
        obtain ⟨s0, hlast0⟩ := hlast
        rw [hcl] at hlast0
        injection hlast0 with hc0
        subst hc0
        refine ⟨s0 + off, ?_⟩
        rw [List.getLast?_append_cons, List.getLast?_cons_cons]
        rfl
      | cons d ds =>
        obtain ⟨s0, hlast0⟩ := hlast
        refine ⟨s0, ?_⟩
        rw [hdecomp, hdrop, List.getLast?_append_cons, List.getLast?_cons_cons] at hlast0
        rw [List.getLast?_append_cons, List.getLast?_cons_cons, List.getLast?_cons_cons]
        exact hlast0

/-- Inserting an insert chunk does not change the copy spans. -/
theorem insertAt_copySpans (l : List Chunk) (i : Nat) (t : List Char) (n : Nat) :
    copySpans (insertAt l i (.ins t n)) = copySpans l := by
  rw [insertAt, copySpans_append, copySpans_cons_ins, ← copySpans_append,
    List.take_append_drop]

/-- Inserting strictly inside the list keeps the last element. -/
theorem insertAt_getLast? (l : List Chunk) (i : Nat) (c : Chunk) (hi : i < l.length) :
    (insertAt l i c).getLast? = l.getLast? := by
  cases hd : l.drop i with
  | nil =>
    exfalso
    rw [List.drop_eq_nil_iff] at hd
    omega
  | cons d ds =>
    rw [insertAt, hd, List.getLast?_append_cons, List.getLast?_cons_cons]
    conv_rhs => rw [← List.take_append_drop i l, hd, List.getLast?_append_cons]

/-- The operation `applyInsert` preserves the structural invariant (for every index and
text, including out-of-range calls). -/
theorem applyInsert_inv {chunks : List Chunk} (idx : Nat) (t : List Char)
    (hinv : Inv chunks) : Inv (applyInsert chunks idx t) := by
  rw [applyInsert]
  cases hf : findChunk chunks idx with
  | none => exact hinv
  | some p =>
    obtain ⟨ci, off⟩ := p
    dsimp only
    have hci : ci < chunks.length := findChunk_lt_length hf
    have hc : chunks[ci]? = some chunks[ci] := List.getElem?_eq_getElem hci
    have hsplit : Inv (splitChunk chunks ci off) :=
      splitChunk_inv hinv fun c hcc l hl => Nat.le_of_lt (findChunk_interior hf hcc hl)
    have hlen : (splitChunk chunks ci off).length = chunks.length + 1 :=
      splitChunk_length off hc
    refine ⟨?_, ?_⟩
    · rw [insertAt_copySpans]
      exact hsplit.1
    · obtain ⟨s0, h0⟩ := hsplit.2
      refine ⟨s0, ?_⟩
      rw [insertAt_getLast? _ _ _ (by omega)]
      exact h0

/-- The operation `applyDelete` preserves the structural invariant (for all bounds,
including degenerate and out-of-range calls). -/
theorem applyDelete_inv {chunks : List Chunk} (a b : Nat) (hinv : Inv chunks) :
    Inv (applyDelete chunks a b) := by
  rw [applyDelete]
  by_cases hab : a = b
  · rw [if_pos hab]; exact hinv
  rw [if_neg hab]
  cases hf1 : findChunk chunks a with
  | none => exact hinv
  | some p1 =>
    obtain ⟨sci, soff⟩ := p1
    dsimp only
    have hinv1 : Inv (splitChunk chunks sci soff) :=
      splitChunk_inv hinv fun c hcc l hl => Nat.le_of_lt (findChunk_interior hf1 hcc hl)
    cases hf2 : findChunk (splitChunk chunks sci soff) b with
    | none => exact hinv1
    | some p2 =>
      obtain ⟨eci, eoff⟩ := p2
      dsimp only
      have hinv2 : Inv (splitChunk (splitChunk chunks sci soff) eci eoff) :=
        splitChunk_inv hinv1 fun c hcc l hl => Nat.le_of_lt (findChunk_interior hf2 hcc hl)
      have heci : eci < (splitChunk chunks sci soff).length := findChunk_lt_length hf2
      have hlen2 :
          (splitChunk (splitChunk chunks sci soff) eci eoff).length
            = (splitChunk chunks sci soff).length + 1 :=
        splitChunk_length eoff (List.getElem?_eq_getElem heci)
      set c2 := splitChunk (splitChunk chunks sci soff) eci eoff with hc2def
      by_cases hle : eci + 1 ≤ sci + 1
      · have heq : sci + 1 + (eci + 1 - (sci + 1)) = sci + 1 := by omega
        rw [heq, List.take_append_drop]
        exact hinv2
      · push_neg at hle
        have heq : sci + 1 + (eci + 1 - (sci + 1)) = eci + 1 := by omega
        rw [heq]
        have hBne : c2.drop (eci + 1) ≠ [] := by
          rw [ne_eq, List.drop_eq_nil_iff]
          omega
        have hdecomp :
            c2 = c2.take (sci + 1) ++ (c2.drop (sci + 1)).take (eci + 1 - (sci + 1))
              ++ c2.drop (eci + 1) := by
          rw [List.append_assoc]
          have h3 : (c2.drop (sci + 1)).drop (eci + 1 - (sci + 1)) = c2.drop (eci + 1) := by
            have h4 := List.drop_drop (eci + 1 - (sci + 1)) (sci + 1) c2
            rw [h4, show sci + 1 + (eci + 1 - (sci + 1)) = eci + 1 by omega]
          rw [← h3, List.take_append_drop, List.take_append_drop]
        have hlastB : (c2.drop (eci + 1)).getLast? = c2.getLast? := by
          conv_rhs => rw [← List.take_append_drop (eci + 1) c2]
          rw [List.getLast?_append_of_ne_nil _ hBne]
        obtain ⟨s0, hlast0⟩ := hinv2.2
        have hspansBne : copySpans (c2.drop (eci + 1)) ≠ [] := by
          have hmem : Chunk.copy s0 none ∈ c2.drop (eci + 1) :=
            mem_of_getLast?_eq (by rw [hlastB]; exact hlast0)
          have : (s0, (none : Option Nat)) ∈ copySpans (c2.drop (eci + 1)) :=
            List.mem_filterMap.mpr ⟨_, hmem, rfl⟩
          exact List.ne_nil_of_mem this
        refine ⟨?_, ?_⟩
        · have hsp := hinv2.1
          rw [hdecomp, copySpans_append, copySpans_append] at hsp
          rw [copySpans_append]
          exact spansFrom_remove_middle _ _ _ hspansBne hsp
        · refine ⟨s0, ?_⟩
          rw [List.getLast?_append_of_ne_nil _ hBne, hlastB]
          exact hlast0

/-- Every reachable recorder state satisfies the structural invariant. -/
theorem reachable_inv {chunks : List Chunk} (h : Reachable chunks) : Inv chunks := by
  induction h with
  | init => exact ⟨⟨Nat.le_refl 0, rfl⟩, 0, rfl⟩
  | ins idx t _ ih => exact applyInsert_inv idx t ih
  | del a b _ ih => exact applyDelete_inv a b ih

theorem modifyAt_length (l : List Chunk) (p : Nat) (f : Chunk → Chunk) :
    (modifyAt l p f).length = l.length := by
  induction l generalizing p with
  | nil => rfl
  | cons c cs ih =>
    cases p with
    | zero => rfl
    | succ n => simp [modifyAt, ih]

/-- The mutation `bumpIns` never changes the shape of a chunk, so the copy spans are
untouched by the `prevInsert` mutation. -/
theorem modifyAt_copySpans (l : List Chunk) (p : Nat) (t : List Char) (n : Nat) :
    copySpans (modifyAt l p (bumpIns t n)) = copySpans l := by
  induction l generalizing p with
  | nil => rfl
  | cons c cs ih =>
    cases p with
    | zero =>
      cases c with
      | copy s len => rfl
      | ins t2 n2 => rfl
    | succ m =>
      cases c with
      | copy s len => simp only [modifyAt, copySpans_cons_copy, ih]
      | ins t2 n2 => simp only [modifyAt, copySpans_cons_ins, ih]

theorem modifyAt_isLastNoneCopy (l : List Chunk) (p : Nat) (t : List Char) (n : Nat)
    (h : isLastNoneCopy l) : isLastNoneCopy (modifyAt l p (bumpIns t n)) := by
  induction l generalizing p with
  | nil => exact h
  | cons c cs ih =>
    cases cs with
    | nil =>
      cases p with
      | zero =>
        obtain ⟨s0, hs0⟩ := h
        simp only [List.getLast?_singleton, Option.some.injEq] at hs0
        subst hs0
        exact ⟨s0, rfl⟩
      | succ m => exact h
    | cons d ds =>
      cases p with
      | zero =>
        rw [show modifyAt (c :: d :: ds) 0 (bumpIns t n) = bumpIns t n c :: d :: ds from rfl]
        rw [isLastNoneCopy_cons (by simp)]
        rw [isLastNoneCopy_cons (by simp)] at h
        exact h
      | succ m =>
        rw [show modifyAt (c :: d :: ds) (m + 1) (bumpIns t n)
            = c :: modifyAt (d :: ds) m (bumpIns t n) from rfl]
        have hne : modifyAt (d :: ds) m (bumpIns t n) ≠ [] := by
          have := modifyAt_length (d :: ds) m (bumpIns t n)
          intro hnil
          rw [hnil] at this
          simp at this
        rw [isLastNoneCopy_cons hne]
        rw [isLastNoneCopy_cons (by simp)] at h
        exact ih m h

/-- Splicing out an insert chunk leaves the copy spans untouched. -/
theorem eraseAt_copySpans_ins {l : List Chunk} {i : Nat} {t : List Char} {n : Nat}
    (h : l[i]? = some (Chunk.ins t n)) : copySpans (eraseAt l i) = copySpans l := by
  have hd := getElem?_decomp h
  rw [eraseAt]
  conv_rhs => rw [hd]
  rw [copySpans_append, copySpans_append, copySpans_cons_ins]

/-- Splicing out an insert chunk keeps the trailing infinite copy chunk. -/
theorem eraseAt_isLastNoneCopy_ins {l : List Chunk} {i : Nat} {t : List Char} {n : Nat}
    (h : l[i]? = some (Chunk.ins t n)) (hl : isLastNoneCopy l) :
    isLastNoneCopy (eraseAt l i) := by
  have hd := getElem?_decomp h
  obtain ⟨s0, hs0⟩ := hl
  cases hdrop : l.drop (i + 1) with
  | nil =>
    exfalso
    rw [hd, hdrop, List.getLast?_append_cons, List.getLast?_singleton] at hs0
    cases hs0
  | cons d ds =>
    refine ⟨s0, ?_⟩
    rw [eraseAt, hdrop, List.getLast?_append_of_ne_nil _ (by simp)]
    rw [hd, hdrop, List.getLast?_append_cons, List.getLast?_cons_cons] at hs0
    exact hs0

/-- The element seen by the loop at the erased slot after a `prevInsert`
mutation is still an insert chunk. -/
theorem modifyAt_getElem? (l : List Chunk) (p i : Nat) (f : Chunk → Chunk) :
    (modifyAt l p f)[i]? = if p = i then (l[i]?).map f else l[i]? := by
  induction l generalizing p i with
  | nil => simp [modifyAt]
  | cons c cs ih =>
    cases p with
    | zero =>
      cases i with
      | zero => simp [modifyAt]
      | succ j => simp [modifyAt]
    | succ m =>
      cases i with
      | zero => simp [modifyAt]
      | succ j =>
        simp only [modifyAt, List.getElem?_cons_succ, ih]
        by_cases hmj : m = j
        · simp [hmj]
        · simp [hmj, fun h => hmj (Nat.succ_injective h)]

/-- Each `mergeInserts_` loop step preserves the structural invariant, for
any amount of fuel. -/
theorem mergeInsertsFuel_inv :
    ∀ (fuel : Nat) (chunks : List Chunk) (i : Nat) (prev : Option Nat),
      Inv chunks → Inv (mergeInsertsFuel fuel chunks i prev) := by
  intro fuel
  induction fuel with
  | zero => intro chunks i prev h; exact h
  | succ f ih =>
    intro chunks i prev h
    rw [mergeInsertsFuel]
    cases hci : chunks[i]? with
    | none => exact h
    | some c =>
      cases c with
      | copy s len => exact ih _ _ _ h
      | ins t n =>
        dsimp only
        by_cases ht : t = []
        · rw [if_pos ht]
          exact ih _ _ _ ⟨by rw [eraseAt_copySpans_ins hci]; exact h.1,
            eraseAt_isLastNoneCopy_ins hci h.2⟩
        · rw [if_neg ht]
          cases prev with
          | none => exact ih _ _ _ h
          | some p =>
            have hmem : ∃ t2 n2,
                (modifyAt chunks p (bumpIns t n))[i]? = some (Chunk.ins t2 n2) := by
              rw [modifyAt_getElem?]
              by_cases hpi : p = i
              · rw [if_pos hpi, hci]
                exact ⟨t ++ t, n + n, rfl⟩
              · rw [if_neg hpi, hci]
                exact ⟨t, n, rfl⟩
            obtain ⟨t2, n2, hmi⟩ := hmem
            refine ih _ _ _ ⟨?_, ?_⟩
            · rw [eraseAt_copySpans_ins hmi, modifyAt_copySpans]
              exact h.1
            · exact eraseAt_isLastNoneCopy_ins hmi (modifyAt_isLastNoneCopy _ _ _ _ h.2)

/-- Insert coalescing preserves the structural invariant. -/
theorem mergeInserts_inv {chunks : List Chunk} (h : Inv chunks) :
    Inv (mergeInserts chunks) :=
  mergeInsertsFuel_inv _ _ _ _ h

theorem revSpansBetween_append_ins :
    ∀ (l : List Chunk) {ub lo : Nat} (t : List Char) (n : Nat),
      revSpansBetween ub l lo → revSpansBetween ub (l ++ [Chunk.ins t n]) lo := by
  intro l
  induction l with
  | nil => intro ub lo t n h; exact h
  | cons c rest ih =>
    intro ub lo t n h
    cases c with
    | copy s len =>
      cases len with
      | some l2 =>
        obtain ⟨h1, h2⟩ := h
        exact ⟨h1, ih t n h2⟩
      | none => exact h.elim
    | ins t2 n2 => exact ih t n h

theorem revSpansBetween_append_copy :
    ∀ (l : List Chunk) {ub s len lo : Nat},
      revSpansBetween ub l (s + len) → lo ≤ s →
      revSpansBetween ub (l ++ [Chunk.copy s (some len)]) lo := by
  intro l
  induction l with
  | nil =>
    intro ub s len lo h hlo
    exact ⟨h, hlo⟩
  | cons c rest ih =>
    intro ub s len lo h hlo
    cases c with
    | copy s2 len2 =>
      cases len2 with
      | some l2 =>
        obtain ⟨h1, h2⟩ := h
        exact ⟨h1, ih h2 hlo⟩
      | none => exact h.elim
    | ins t2 n2 => exact ih h hlo

/-- The structural invariant, read along the reversed chunk list: the list
reversed starts with the trailing infinite copy chunk, and the rest of the
reversal satisfies the descending-span condition from its start. -/
theorem inv_reverse :
    ∀ (chunks : List Chunk) (lo : Nat), spansFrom lo (copySpans chunks) →
      isLastNoneCopy chunks →
      ∃ sM revRest, chunks.reverse = Chunk.copy sM none :: revRest ∧
        revSpansBetween sM revRest lo := by
  intro chunks
  induction chunks with
  | nil => intro lo h _; exact h.elim
  | cons c rest ih =>
    intro lo h hlast
    cases c with
    | ins t n =>
      rw [copySpans_cons_ins] at h
      have hne : rest ≠ [] := by
        intro hr
        subst hr
        exact h.elim
      obtain ⟨sM, revRest, hrev, hrb⟩ := ih lo h ((isLastNoneCopy_cons hne).mp hlast)
      refine ⟨sM, revRest ++ [Chunk.ins t n], ?_, revSpansBetween_append_ins _ t n hrb⟩
      rw [List.reverse_cons, hrev]
      simp
    | copy s len =>
      cases len with
      | some l =>
        rw [copySpans_cons_copy] at h
        obtain ⟨h1, h2⟩ := h
        have hne : rest ≠ [] := by
          intro hr
          subst hr
          exact h2.elim
        obtain ⟨sM, revRest, hrev, hrb⟩ := ih (s + l) h2 ((isLastNoneCopy_cons hne).mp hlast)
        refine ⟨sM, revRest ++ [Chunk.copy s (some l)], ?_,
          revSpansBetween_append_copy _ hrb h1⟩
        rw [List.reverse_cons, hrev]
        simp
      | none =>
        rw [copySpans_cons_copy] at h
        obtain ⟨h1, h2⟩ := h
        cases hrest : rest with
        | nil =>
          subst hrest
          exact ⟨s, [], by simp, h1⟩
        | cons d ds =>
          exfalso
          subst hrest
          obtain ⟨s1, hs1⟩ := (isLastNoneCopy_cons (by simp)).mp hlast
          have hmem : Chunk.copy s1 none ∈ d :: ds := mem_of_getLast?_eq hs1
          have hsp : (s1, (none : Option Nat)) ∈ copySpans (d :: ds) :=
            List.mem_filterMap.mpr ⟨_, hmem, rfl⟩
          rw [h2] at hsp
          cases hsp

theorem emitted_mono {ub ub2 : Nat} (h : ub ≤ ub2) :
    ∀ l, emitted ub l → emitted ub2 l := by
  intro l
  induction l with
  | nil => intro he; exact he
  | cons a rest ih =>
    intro he
    cases a with
    | del s e =>
      cases e with
      | some e0 =>
        obtain ⟨h1, h2, h3⟩ := he
        exact ⟨h1, Nat.le_trans h2 h, h3⟩
      | none => exact he.elim
    | insA p t =>
      cases p with
      | some p0 =>
        obtain ⟨h1, h2⟩ := he
        exact ⟨Nat.le_trans h1 h, h2⟩
      | none => exact he.elim

/-- The emission loop of `getSimpleDiff` produces a well-shaped action list
whenever the reversed chunk tail satisfies the descending-span condition. -/
theorem emit_ok :
    ∀ (rev : List Chunk) (ub lo : Nat), revSpansBetween ub rev lo →
      emitted ub (emitAux (some ub) rev) := by
  intro rev
  induction rev with
  | nil => intro ub lo _; exact trivial
  | cons c rest ih =>
    intro ub lo h
    cases c with
    | copy s len =>
      cases len with
      | some l =>
        obtain ⟨h1, h2⟩ := h
        dsimp only [emitAux]
        by_cases hlt : s + l < ub
        · rw [if_pos hlt]
          exact ⟨hlt, Nat.le_refl _, emitted_mono (Nat.le_add_right s l) _ (ih _ _ h2)⟩
        · rw [if_neg hlt]
          exact emitted_mono (Nat.le_trans (Nat.le_add_right s l) h1) _ (ih _ _ h2)
      | none => exact h.elim
    | ins t n =>
      dsimp only [emitAux]
      exact ⟨Nat.le_refl _, ih _ _ h⟩

/-- Replacing an adjacent delete pair by its merge keeps the action list
well shaped. -/
theorem emitted_replace :
    ∀ (X : List Action) {b s ps : Nat} {e : Option Nat} {rest : List Action},
      emitted b (X ++ Action.del s e :: Action.del ps (some s) :: rest) →
      emitted b (X ++ Action.del ps e :: rest) := by
  intro X
  induction X with
  | nil =>
    intro b s ps e rest h
    cases e with
    | some e0 =>
      obtain ⟨h1, h2, h3, h4, h5⟩ := h
      exact ⟨by omega, h2, h5⟩
    | none => exact h.elim
  | cons x X2 ih =>
    intro b s ps e rest h
    cases x with
    | del s1 e1 =>
      cases e1 with
      | some e10 =>
        obtain ⟨h1, h2, h3⟩ := h
        exact ⟨h1, h2, ih h3⟩
      | none => exact h.elim
    | insA p t =>
      cases p with
      | some p0 =>
        obtain ⟨h1, h2⟩ := h
        exact ⟨h1, ih h2⟩
      | none => exact h.elim

/-- The delete-merging pass keeps the action list well shaped. -/
theorem mergeDeletesAux_emitted :
    ∀ (r acc : List Action) (b : Nat), emitted b (r.reverse ++ acc) →
      emitted b (mergeDeletesAux acc r) := by
  intro r
  induction r with
  | nil =>
    intro acc b h
    simpa using h
  | cons a r2 ih =>
    intro acc b h
    have hre : (a :: r2).reverse ++ acc = r2.reverse ++ a :: acc := by simp
    rw [hre] at h
    cases a with
    | del s e =>
      cases acc with
      | nil => exact ih _ _ h
      | cons a0 accRest =>
        cases a0 with
        | del ps pe =>
          dsimp only [mergeDeletesAux]
          by_cases hpe : pe = some s
          · rw [if_pos hpe]
            subst hpe
            exact ih _ _ (emitted_replace _ h)
          · rw [if_neg hpe]
            exact ih _ _ h
        | insA p t => exact ih _ _ h
    | insA p t => exact ih _ _ h

theorem emitted_mergeDeletes {b : Nat} {l : List Action} (h : emitted b l) :
    emitted b (mergeDeletes l) := by
  rw [mergeDeletes]
  exact mergeDeletesAux_emitted _ _ _ (by simpa using h)

/-- The relation `noAdjacent` only looks at the start of its first delete, which a merge
never changes. -/
theorem noAdjacent_of_start {ps : Nat} {pe e : Option Nat} {y : Action}
    (h : noAdjacent (Action.del ps pe) y) : noAdjacent (Action.del ps e) y := by
  cases y with
  | del s2 e2 => exact h
  | insA p t => exact trivial

/-- The delete-merging pass only outputs consecutive delete pairs whose
merge test failed, so no two consecutive deletes in its output are
adjacent. -/
theorem mergeDeletesAux_consecOK :
    ∀ (r acc : List Action), consecOK acc → consecOK (mergeDeletesAux acc r) := by
  intro r
  induction r with
  | nil => intro acc h; exact h
  | cons a r2 ih =>
    intro acc h
    cases a with
    | del s e =>
      cases acc with
      | nil => exact ih _ (List.chain'_singleton _)
      | cons a0 accRest =>
        cases a0 with
        | del ps pe =>
          dsimp only [mergeDeletesAux]
          by_cases hpe : pe = some s
          · rw [if_pos hpe]
            apply ih
            rw [consecOK, List.chain'_cons'] at h ⊢
            exact ⟨fun y hy => noAdjacent_of_start (h.1 y hy), h.2⟩
          · rw [if_neg hpe]
            apply ih
            rw [consecOK, List.chain'_cons]
            exact ⟨hpe, h⟩
        | insA p t =>
          apply ih
          rw [consecOK, List.chain'_cons]
          exact ⟨trivial, h⟩
    | insA p t =>
      apply ih
      rw [consecOK, List.chain'_cons']
      exact ⟨fun y hy => by cases y <;> exact trivial, h⟩

theorem consecOK_mergeDeletes (l : List Action) : consecOK (mergeDeletes l) :=
  mergeDeletesAux_consecOK _ _ List.chain'_nil

/-- A well-shaped action list only contains finite actions. -/
theorem emitted_finite {ub : Nat} :
    ∀ {l : List Action}, emitted ub l → ∀ a ∈ l, actionFinite a := by
  intro l
  induction l generalizing ub with
  | nil => intro _ a ha; cases ha
  | cons x rest ih =>
    intro h a ha
    rcases List.mem_cons.mp ha with rfl | hmem
    · cases a with
      | del s e =>
        cases e with
        | some e0 => exact h.1
        | none => exact h.elim
      | insA p t =>
        cases p with
        | some p0 => exact trivial
        | none => exact h.elim
    · cases x with
      | del s e =>
        cases e with
        | some e0 => exact ih h.2.2 a hmem
        | none => exact h.elim
      | insA p t =>
        cases p with
        | some p0 => exact ih h.2 a hmem
        | none => exact h.elim

/-- In a well-shaped action list every delete span ends at or below the
entry bound. -/
theorem emitted_ends_le {ub : Nat} :
    ∀ {l : List Action}, emitted ub l →
      ∀ p ∈ delSpans l, ∃ v, p.2 = some v ∧ v ≤ ub := by
  intro l
  induction l generalizing ub with
  | nil => intro _ p hp; cases hp
  | cons x rest ih =>
    intro h p hp
    cases x with
    | del s e =>
      cases e with
      | some e0 =>
        obtain ⟨h1, h2, h3⟩ := h
        rw [show delSpans (Action.del s (some e0) :: rest)
            = (s, some e0) :: delSpans rest from rfl] at hp
        rcases List.mem_cons.mp hp with rfl | hmem
        · exact ⟨e0, rfl, h2⟩
        · obtain ⟨v, hv1, hv2⟩ := ih h3 p hmem
          exact ⟨v, hv1, by omega⟩
      | none => exact h.elim
    | insA q t =>
      cases q with
      | some q0 =>
        rw [show delSpans (Action.insA (some q0) t :: rest) = delSpans rest from rfl] at hp
        obtain ⟨h1, h2⟩ := h
        obtain ⟨v, hv1, hv2⟩ := ih h2 p hp
        exact ⟨v, hv1, by omega⟩
      | none => exact h.elim

/-- In a well-shaped action list the delete spans are pairwise disjoint and
strictly descending: every later span ends at or below the start of every
earlier one. -/
theorem emitted_pairwise {ub : Nat} :
    ∀ {l : List Action}, emitted ub l → List.Pairwise spanBelow (delSpans l) := by
  intro l
  induction l generalizing ub with
  | nil => intro _; exact List.Pairwise.nil
  | cons x rest ih =>
    intro h
    cases x with
    | del s e =>
      cases e with
      | some e0 =>
        obtain ⟨h1, h2, h3⟩ := h
        rw [show delSpans (Action.del s (some e0) :: rest)
            = (s, some e0) :: delSpans rest from rfl]
        rw [List.pairwise_cons]
        refine ⟨?_, ih h3⟩
        intro q hq
        obtain ⟨v, hv1, hv2⟩ := emitted_ends_le h3 q hq
        rw [spanBelow, hv1]
        exact hv2
      | none => exact h.elim
    | insA q t =>
      cases q with
      | some q0 =>
        rw [show delSpans (Action.insA (some q0) t :: rest) = delSpans rest from rfl]
        exact ih h.2
      | none => exact h.elim

/-- In a well-shaped action list every insert point lies at or below the
entry bound. -/
theorem emitted_points_le {ub : Nat} :
    ∀ {l : List Action}, emitted ub l →
      ∀ (p : Nat) (t : List Char), Action.insA (some p) t ∈ l → p ≤ ub := by
  intro l
  induction l generalizing ub with
  | nil => intro _ p t hp; cases hp
  | cons x rest ih =>
    intro h p t hp
    cases x with
    | del s e =>
      cases e with
      | some e0 =>
        obtain ⟨h1, h2, h3⟩ := h
        rcases List.mem_cons.mp hp with heq | hmem
        · cases heq
        · have := ih h3 p t hmem
          omega
      | none => exact h.elim
    | insA q t2 =>
      cases q with
      | some q0 =>
        obtain ⟨h1, h2⟩ := h
        rcases List.mem_cons.mp hp with heq | hmem
        · injection heq with heq1 heq2
          injection heq1 with heq1
          omega
        · have := ih h2 p t hmem
          omega
      | none => exact h.elim

/-- In a well-shaped action list no insert point lies strictly inside any
delete span, in either order along the list: a delete listed before an
insert starts at or above the insert's point, and a delete listed after an
insert ends at or below it. -/
theorem emitted_noInterior {ub : Nat} :
    ∀ {l : List Action}, emitted ub l → List.Pairwise noInteriorInsert l := by
  intro l
  induction l generalizing ub with
  | nil => intro _; exact List.Pairwise.nil
  | cons x rest ih =>
    intro h
    rw [List.pairwise_cons]
    cases x with
    | del s e =>
      cases e with
      | some e0 =>
        obtain ⟨h1, h2, h3⟩ := h
        refine ⟨?_, ih h3⟩
        intro b hb
        cases b with
        | del s2 e2 => exact trivial
        | insA q t =>
          cases q with
          | some q0 => exact emitted_points_le h3 q0 t hb
          | none => exact trivial
      | none => exact h.elim
    | insA q t =>
      cases q with
      | some q0 =>
        obtain ⟨h1, h2⟩ := h
        refine ⟨?_, ih h2⟩
        intro b hb
        cases b with
        | del s2 e2 =>
          have hsp : (s2, e2) ∈ delSpans rest := List.mem_filterMap.mpr ⟨_, hb, rfl⟩
          obtain ⟨v, hv1, hv2⟩ := emitted_ends_le h2 (s2, e2) hsp
          cases e2 with
          | some e20 =>
            have hv : e20 = v := by simpa using hv1
            subst hv
            exact hv2
          | none =>
            exfalso
            simp at hv1
        | insA q2 t2 => cases q2 <;> exact trivial
      | none => exact h.elim

/-- Every diff produced from a reachable state is well shaped below the
start offset of the trailing infinite copy chunk. -/
theorem reach_diff_emitted {chunks : List Chunk} (h : Reachable chunks) :
    ∃ ub, emitted ub (getSimpleDiff chunks) := by
  have hinv : Inv (mergeInserts chunks) := mergeInserts_inv (reachable_inv h)
  obtain ⟨sM, revRest, hrev, hrb⟩ := inv_reverse _ 0 hinv.1 hinv.2
  refine ⟨sM, ?_⟩
  rw [getSimpleDiff, hrev]
  rw [show emitAux none (Chunk.copy sM none :: revRest) = emitAux (some sM) revRest from rfl]
  exact emitted_mergeDeletes (emit_ok revRest sM 0 hrb)

/-- Helper: running a sequence of equal-bound deletes leaves any state put. -/
theorem foldl_trivial_deletes (es : List Edit) :
    ∀ chunks : List Chunk, (∀ e ∈ es, isTrivialDelete e = true) →
      es.foldl applyEdit chunks = chunks := by
  induction es with
  | nil => intro chunks _; rfl
  | cons e rest ih =>
    intro chunks h
    have he : isTrivialDelete e = true := h e (List.mem_cons_self e rest)
    have hstep : applyEdit chunks e = chunks := by
      cases e with
      | einsert i t => simp [isTrivialDelete] at he
      | edelete a b =>
        have hab : a = b := by simpa [isTrivialDelete] using he
        subst hab
        exact applyDelete_self chunks a
    calc (e :: rest).foldl applyEdit chunks
        = rest.foldl applyEdit (applyEdit chunks e) := rfl
      _ = rest.foldl applyEdit chunks := by rw [hstep]
      _ = chunks := ih chunks fun x hx => h x (List.mem_cons_of_mem e hx)

/-- C1.  The round-trip property fails on the code: for the well-formed
sequence `insert(0,"AC"); insert(1,"B"); insert(2,"D")` against the base
`""`, direct application yields `"ABDC"`, but replaying the extracted
simplified diff end-to-beginning yields `"ABCD"`.  The cause is the
empty-text branch of `mergeInserts_`, which splices without decrementing the
loop index, skipping the chunk that slides into the removed slot; a later
insert chunk is then concatenated onto a `prevInsert` across the skipped
chunk, out of order. -/
theorem roundTrip_violation_insert_skip :
    wfEdits [] [Edit.einsert 0 ['A', 'C'], Edit.einsert 1 ['B'], Edit.einsert 2 ['D']] = true ∧
    replay []
        (getSimpleDiff (runEdits
          [Edit.einsert 0 ['A', 'C'], Edit.einsert 1 ['B'], Edit.einsert 2 ['D']]))
      = ['A', 'B', 'C', 'D'] ∧
    applyEditsStr [] [Edit.einsert 0 ['A', 'C'], Edit.einsert 1 ['B'], Edit.einsert 2 ['D']]
      = ['A', 'B', 'D', 'C'] ∧
    replay []
        (getSimpleDiff (runEdits
          [Edit.einsert 0 ['A', 'C'], Edit.einsert 1 ['B'], Edit.einsert 2 ['D']]))
      ≠ applyEditsStr [] [Edit.einsert 0 ['A', 'C'], Edit.einsert 1 ['B'], Edit.einsert 2 ['D']] := by
  refine ⟨by decide, by decide, by decide, by decide⟩

/-- C2 counterexample.  For the well-formed sequence `delete(2,3);
insert(2,"T"); insert(3,"U"); delete(4,5)` against base `"abcdef"`, the
returned diff contains the delete actions `{start 3, end 4}` and `{start 2,
end 3}` — the end of one equals the start of the other, so the output does
contain a pair of adjacent deletes (they are separated by insert actions in
the list, which resets the merge pass's `prevDelete`). -/
theorem adjacent_deletes_in_output :
    wfEdits ['a', 'b', 'c', 'd', 'e', 'f']
        [Edit.edelete 2 3, Edit.einsert 2 ['T'], Edit.einsert 3 ['U'], Edit.edelete 4 5] = true ∧
    getSimpleDiff (runEdits
        [Edit.edelete 2 3, Edit.einsert 2 ['T'], Edit.einsert 3 ['U'], Edit.edelete 4 5])
      = [Action.del 3 (some 4), Action.insA (some 3) ['U'],
         Action.insA (some 3) ['T'], Action.del 2 (some 3)] ∧
    Action.del 3 (some 4) ∈ getSimpleDiff (runEdits
        [Edit.edelete 2 3, Edit.einsert 2 ['T'], Edit.einsert 3 ['U'], Edit.edelete 4 5]) ∧
    Action.del 2 (some 3) ∈ getSimpleDiff (runEdits
        [Edit.edelete 2 3, Edit.einsert 2 ['T'], Edit.einsert 3 ['U'], Edit.edelete 4 5]) := by
  refine ⟨by decide, by decide, by decide, by decide⟩

/-- C3 counterexample.  A split request at an existing chunk boundary is not
a no-op: `applyInsert(0, "X")` on a fresh recorder requests a split at
offset 0 of the initial chunk, which changes the chunk sequence and leaves a
zero-length copy chunk in it. -/
theorem boundary_split_not_noop :
    splitChunk initialChunks 0 0 ≠ initialChunks ∧
    applyInsert initialChunks 0 ['X']
      = [Chunk.copy 0 (some 0), Chunk.ins ['X'] 1, Chunk.copy 0 none] ∧
    Chunk.copy 0 (some 0) ∈ applyInsert initialChunks 0 ['X'] := by
  refine ⟨by decide, by decide, by decide⟩

/-- C4.  Delete-merge scenario: on a fresh recorder, `applyDelete(2,3)` then
`applyDelete(2,4)` (the virtual coordinates of original span `[3,5)` after
the first deletion) produce exactly the single merged delete
`{start 2, end 5}`. -/
theorem delete_merge_scenario :
    getSimpleDiff (runEdits [Edit.edelete 2 3, Edit.edelete 2 4]) = [Action.del 2 (some 5)] := by
  decide

/-- C5 counterexample.  For base `"abcdef"` with `insert(3,"XY")` then
`delete(0,1)`, the returned diff is `[insert {start 3, text "XY"}, delete
{start 0, end 1}]` as the claim states, but replaying it end-to-beginning
against `"abcdef"` yields `"bcXYdef"`, not the claimed `"bcdXYef"`. -/
theorem concrete_scenario_string_mismatch :
    replay ['a', 'b', 'c', 'd', 'e', 'f']
        (getSimpleDiff (runEdits [Edit.einsert 3 ['X', 'Y'], Edit.edelete 0 1]))
      = ['b', 'c', 'X', 'Y', 'd', 'e', 'f'] ∧
    ['b', 'c', 'X', 'Y', 'd', 'e', 'f'] ≠ ['b', 'c', 'd', 'X', 'Y', 'e', 'f'] := by
  refine ⟨by decide, by decide⟩

/-- C5 as amended.  On a fresh recorder, `insert(3,"XY")` then `delete(0,1)`
yield exactly the diff `[insert {start 3, text "XY"}, delete {start 0, end
1}]` in that order, and replaying it end-to-beginning against `"abcdef"`
yields `"bcXYdef"`, which equals direct application of the original edits to
the same base. -/
theorem concrete_scenario_amended :
    getSimpleDiff (runEdits [Edit.einsert 3 ['X', 'Y'], Edit.edelete 0 1])
      = [Action.insA (some 3) ['X', 'Y'], Action.del 0 (some 1)] ∧
    replay ['a', 'b', 'c', 'd', 'e', 'f']
        (getSimpleDiff (runEdits [Edit.einsert 3 ['X', 'Y'], Edit.edelete 0 1]))
      = ['b', 'c', 'X', 'Y', 'd', 'e', 'f'] ∧
    applyEditsStr ['a', 'b', 'c', 'd', 'e', 'f'] [Edit.einsert 3 ['X', 'Y'], Edit.edelete 0 1]
      = ['b', 'c', 'X', 'Y', 'd', 'e', 'f'] := by
  refine ⟨by decide, by decide, by decide⟩

/-- C6.  Empty-insert elimination fails on the code: for the well-formed
sequence `insert(0,"a"); insert(0,"")`, the returned diff is
`[insert {start 0, text "a"}, insert {start 0, text ""}]` — it contains an
insert action with empty text.  The `mergeInserts_` branch that is supposed
to drop empty inserts splices without decrementing the loop index, so the
empty insert chunk that slides into the removed slot is never examined. -/
theorem empty_insert_action_in_output :
    wfEdits [] [Edit.einsert 0 ['a'], Edit.einsert 0 []] = true ∧
    getSimpleDiff (runEdits [Edit.einsert 0 ['a'], Edit.einsert 0 []])
      = [Action.insA (some 0) ['a'], Action.insA (some 0) []] ∧
    Action.insA (some 0) [] ∈ getSimpleDiff (runEdits [Edit.einsert 0 ['a'], Edit.einsert 0 []]) := by
  refine ⟨by decide, by decide, by decide⟩

/-- C7.  An equal-bounds delete is a pure no-op: for every recorder state and
every index, `applyDelete(i, i)` leaves the chunk sequence unchanged. -/
theorem applyDelete_equal_bounds_noop (chunks : List Chunk) (i : Nat) :
    applyDelete chunks i i = chunks :=
  applyDelete_self chunks i

/-- C10.  Extracting the diff from a fresh recorder, or from a recorder that
has only received `applyDelete` calls with equal bounds, returns the empty
action list. -/
theorem diff_empty_of_trivial_edits (es : List Edit)
    (h : ∀ e ∈ es, isTrivialDelete e = true) :
    getSimpleDiff (runEdits es) = [] := by
  have hrun : runEdits es = initialChunks := foldl_trivial_deletes es initialChunks h
  rw [hrun]
  decide

/-- Witness for C10 at a concrete input. -/
theorem diff_empty_of_trivial_edits_witness :
    getSimpleDiff (runEdits [Edit.edelete 3 3]) = [] :=
  diff_empty_of_trivial_edits [Edit.edelete 3 3] (by decide)

theorem docOf_append (S : List Char) (a b : List Chunk) :
    docOf S (a ++ b) = docOf S a ++ docOf S b := by
  simp [docOf]

/-- C3 as amended.  A split request at a chunk boundary only ever happens at
offset 0 (the locate walk never returns an offset equal to a finite chunk's
length), and an offset-0 split, while inserting a zero-length chunk rather
than being a no-op on the chunk sequence, leaves the document content the
sequence denotes unchanged. -/
theorem boundary_split_amended :
    (∀ (S : List Char) (chunks : List Chunk) (ci : Nat),
        docOf S (splitChunk chunks ci 0) = docOf S chunks) ∧
    (∀ (chunks : List Chunk) (t j off : Nat) (c : Chunk) (l : Nat),
        findChunk chunks t = some (j, off) → chunks[j]? = some c →
        chunkLen c = some l → off < l) := by
  constructor
  · intro S chunks ci
    cases hc : chunks[ci]? with
    | none => rw [splitChunk, hc]
    | some c =>
      rw [splitChunk_eq 0 hc]
      conv_rhs => rw [getElem?_decomp hc]
      rw [show leftHalf c 0 :: rightHalf c 0 :: chunks.drop (ci + 1)
          = [leftHalf c 0, rightHalf c 0] ++ chunks.drop (ci + 1) from rfl]
      rw [show (c :: chunks.drop (ci + 1)) = [c] ++ chunks.drop (ci + 1) from rfl]
      rw [← List.append_assoc, ← List.append_assoc, docOf_append, docOf_append,
        docOf_append, docOf_append]
      have hmid : docOf S [leftHalf c 0, rightHalf c 0] = docOf S [c] := by
        cases c with
        | copy s len =>
          cases len with
          | some l => simp [docOf, leftHalf, rightHalf, denote]
          | none => simp [docOf, leftHalf, rightHalf, denote]
        | ins t n => simp [docOf, leftHalf, rightHalf, denote]
      rw [hmid]
  · intro chunks t j off c l hf hc hl
    exact findChunk_interior hf hc hl

/-- Witness for C3 as amended at concrete inputs. -/
theorem boundary_split_amended_witness :
    docOf ['a', 'b'] (splitChunk initialChunks 0 0) = docOf ['a', 'b'] initialChunks ∧
    (1 : Nat) < 2 :=
  ⟨boundary_split_amended.1 ['a', 'b'] initialChunks 0,
   boundary_split_amended.2 [Chunk.copy 0 (some 2), Chunk.copy 2 none] 1 0 1
     (Chunk.copy 0 (some 2)) 2 (by decide) (by decide) (by decide)⟩

/-- C2 as amended.  For every reachable recorder state the extracted diff
has non-overlapping original-document spans: the delete spans are pairwise
disjoint and strictly descending (every later delete ends at or below the
start of every earlier one), and an insert's start, as a zero-width point,
never lies strictly inside any delete's span — a delete listed before an
insert (higher offsets) starts at or above the insert's point, and a delete
listed after an insert ends at or below it (two zero-width points cannot
overlap).  Moreover no two deletes that are consecutive in the action list
are adjacent; delete actions separated by insert actions may be adjacent
(end of one equal to start of the other), as the counterexample shows, so
adjacency-freedom holds only for consecutive deletes. -/
theorem diff_deletes_separated (chunks : List Chunk) (h : Reachable chunks) :
    List.Pairwise spanBelow (delSpans (getSimpleDiff chunks)) ∧
    List.Pairwise noInteriorInsert (getSimpleDiff chunks) ∧
    consecOK (getSimpleDiff chunks) := by
  obtain ⟨ub, hem⟩ := reach_diff_emitted h
  refine ⟨emitted_pairwise hem, emitted_noInterior hem, ?_⟩
  rw [getSimpleDiff]
  exact consecOK_mergeDeletes _

/-- Witness for C2 as amended at a concrete reachable state. -/
theorem diff_deletes_separated_witness :
    List.Pairwise spanBelow (delSpans (getSimpleDiff (applyDelete initialChunks 2 5))) ∧
    List.Pairwise noInteriorInsert (getSimpleDiff (applyDelete initialChunks 2 5)) ∧
    consecOK (getSimpleDiff (applyDelete initialChunks 2 5)) :=
  diff_deletes_separated (applyDelete initialChunks 2 5) (Reachable.del 2 5 Reachable.init)

/-- C8.  In every reachable recorder state the chunk walk `findChunk_`
returns a defined (chunk index, remainder offset) pair for every target
index: the sequence always ends in a copy chunk of unbounded length, so the
walk cannot fall off the end.  (In this embedding the walk is structurally
recursive, so termination holds by construction; the content of the claim
is that the result is always defined.) -/
theorem findChunk_total_on_reachable (chunks : List Chunk) (h : Reachable chunks) (t : Nat) :
    (findChunk chunks t).isSome = true := by
  obtain ⟨-, s0, hs0⟩ := reachable_inv h
  exact findChunkAux_isSome _ _ _ ⟨_, mem_of_getLast?_eq hs0, rfl⟩

/-- Witness for C8 at a concrete reachable state. -/
theorem findChunk_total_on_reachable_witness :
    (findChunk initialChunks 7).isSome = true :=
  findChunk_total_on_reachable initialChunks Reachable.init 7

/-- C9.  The `Infinity` sentinel never leaks into the output: for every
reachable recorder state, every action in the extracted diff has finite
offsets — every delete has finite start and end with start strictly below
end, and every insert has a finite start — even though the internal
representation carries an infinite trailing copy chunk and the gap
computation for that chunk evaluates `Infinity - Infinity`. -/
theorem diff_actions_finite_of_reachable (chunks : List Chunk) (h : Reachable chunks) :
    ∀ a ∈ getSimpleDiff chunks, actionFinite a := by
  obtain ⟨ub, hem⟩ := reach_diff_emitted h
  exact emitted_finite hem

/-- Witness for C9 at a concrete reachable state with a nonempty diff. -/
theorem diff_actions_finite_witness : actionFinite (Action.del 2 (some 5)) :=
  diff_actions_finite_of_reachable (applyDelete initialChunks 2 5)
    (Reachable.del 2 5 Reachable.init) (Action.del 2 (some 5)) (by decide)

end MobCode
